import Mathlib

set_option maxRecDepth 100000

/-!
Verification of `get_dazai_writings.py`: a batch ETL script that downloads
Aozora-bunko works, strips ruby/editorial markup and header/footer
boilerplate (`clean_aozora_text`), and joins the cleaned texts into one
corpus file (`main`).

Texts are modelled as `List Char`.  The pure cleaning routine is embedded
directly from the source; the network/zip pipeline of
`download_and_process_aozora` is embedded over an abstract per-request
outcome (transport error / HTTP status / archive entry list), and the
Shift_JIS decode with `errors="ignore"` is embedded as a byte-level decoder
in an error monad, parameterised by the two-byte code table.
-/

/-- First result (or `none`) of dropping everything through the first
occurrence of `t`, as used by Python's regex scan to locate the closing
bracket of a `《...》` / `［＃...］` span. -/
def dropThroughFirst (t : Char) : List Char → Option (List Char)
  | [] => none
  | c :: rest => if c = t then some rest else dropThroughFirst t rest

/-- Fuelled scanner for `re.sub(r"《[^》]+》", "", text)`.  A match starts at
`《`, needs a non-empty run of non-`》` characters, and extends to the first
`》`; scanning resumes after the match (non-overlapping), or one character
later when no match starts here.  Fuel is the initial length; it only makes
the recursion structural. -/
def removeRubyF : Nat → List Char → List Char
  | _, [] => []
  | 0, l => l
  | n + 1, c :: rest =>
    if c = '《' then
      match rest with
      | [] => [c]
      | d :: _ =>
        if d = '》' then c :: removeRubyF n rest
        else
          match dropThroughFirst '》' rest with
          | some rest2 => removeRubyF n rest2
          | none => c :: removeRubyF n rest
    else c :: removeRubyF n rest

/-- `re.sub(r"《[^》]+》", "", text)` (source line 19). -/
def removeRuby (l : List Char) : List Char := removeRubyF l.length l

/-- Fuelled scanner for `re.sub(r"［＃[^］]+］", "", text)`: opener `［＃`,
non-empty `］`-free body, first `］` closes the match. -/
def removeNotesF : Nat → List Char → List Char
  | _, [] => []
  | 0, l => l
  | n + 1, c :: rest =>
    if c = '［' then
      match rest with
      | [] => [c]
      | d :: rest2 =>
        if d = '＃' then
          match rest2 with
          | [] => c :: removeNotesF n rest
          | e :: _ =>
            if e = '］' then c :: removeNotesF n rest
            else
              match dropThroughFirst '］' rest2 with
              | some rest3 => removeNotesF n rest3
              | none => c :: removeNotesF n rest
        else c :: removeNotesF n rest
    else c :: removeNotesF n rest

/-- `re.sub(r"［＃[^］]+］", "", text)` (source line 21). -/
def removeNotes (l : List Char) : List Char := removeNotesF l.length l

/-- `re.sub(r"｜", "", text)` (source line 23). -/
def removeSeparatorGlyph (l : List Char) : List Char := l.filter (fun c => !(c = '｜'))

/-- The three regex substitutions of `clean_aozora_text`, in source order. -/
def stripMarkup (l : List Char) : List Char :=
  removeSeparatorGlyph (removeNotes (removeRuby l))

/-- Python `text.split("\n")`: always at least one (possibly empty) line. -/
def splitLines : List Char → List (List Char)
  | [] => [[]]
  | c :: rest =>
    if c = '\n' then [] :: splitLines rest
    else
      match splitLines rest with
      | [] => [[c]]
      | l :: ls => (c :: l) :: ls

/-- Python `sep.join(parts)`. -/
def joinWith (sep : List Char) : List (List Char) → List Char
  | [] => []
  | [l] => l
  | l :: ls => l ++ (sep ++ joinWith sep ls)

/-- Python `"\n".join(parts)`. -/
def joinLines (ls : List (List Char)) : List Char := joinWith ['\n'] ls

/-- Python substring containment `pat in l`. -/
def containsSub (pat : List Char) : List Char → Bool
  | [] => pat.isEmpty
  | c :: rest => pat.isPrefixOf (c :: rest) || containsSub pat rest

/-- The horizontal-rule literal of source line 33: a row of 55 hyphens. -/
def headerSep : List Char := List.replicate 55 '-'

/-- The header loop (source lines 31-37): walk the lines counting those that
contain `headerSep`; on the second one, break with `start_idx = i + 1`.
Returns `(start_idx, separator_count, line)` where `line` is the loop
variable's value when the loop ends (stale value later read by the footer
loop).  When the loop finishes without a break, `start_idx` stays `0`. -/
def headerLoop : List (List Char) → Nat → Nat → List Char → Nat × Nat × List Char
  | [], _, cnt, last => (0, cnt, last)
  | l :: rest, i, cnt, _ =>
    if containsSub headerSep l then
      (if cnt + 1 = 2 then (i + 1, 2, l) else headerLoop rest (i + 1) (cnt + 1) l)
    else headerLoop rest (i + 1) cnt l

/-- Colophon marker `底本：` (source line 42). -/
def colophon1 : List Char := ['底', '本', '：']

/-- Colophon marker `底本の親本：` (source line 42). -/
def colophon2 : List Char := ['底', '本', 'の', '親', '本', '：']

/-- The footer loop's test `line.startswith("底本：") or line.startswith("底本の親本：")`. -/
def isColophonStart (l : List Char) : Bool :=
  colophon1.isPrefixOf l || colophon2.isPrefixOf l

/-- The footer loop (source lines 40-44): `for i in range(start_idx, len(lines))`,
testing the stale `line` each iteration; on success `end_idx = i` and break. -/
def footerScan (stale : List Char) : List Nat → Nat → Nat
  | [], dflt => dflt
  | i :: rest, dflt => if isColophonStart stale then i else footerScan stale rest dflt

/-- Python `str.isspace` character class (the set stripped by `strip`/`rstrip`). -/
def isPySpace (c : Char) : Bool :=
  let n := c.toNat
  decide ((9 ≤ n ∧ n ≤ 13) ∨ n = 32 ∨ (28 ≤ n ∧ n ≤ 31) ∨ n = 0x85 ∨ n = 0xA0 ∨
    n = 0x1680 ∨ (0x2000 ≤ n ∧ n ≤ 0x200A) ∨ n = 0x2028 ∨ n = 0x2029 ∨
    n = 0x202F ∨ n = 0x205F ∨ n = 0x3000)

/-- Python `line.rstrip()`. -/
def rstrip (l : List Char) : List Char := (l.reverse.dropWhile isPySpace).reverse

/-- Python `line.strip()`. -/
def pyStrip (l : List Char) : List Char :=
  ((l.dropWhile isPySpace).reverse.dropWhile isPySpace).reverse

/-- Truthiness of `line.strip()` in the comprehension's filter (source line 53). -/
def keepLine (l : List Char) : Bool := !(pyStrip l).isEmpty

/-- `"\n".join([line.rstrip() for line in cleaned_lines if line.strip()])`
(source lines 52-54). -/
def finishLines (ls : List (List Char)) : List Char :=
  joinLines ((ls.filter keepLine).map rstrip)

/-- `lines` after the regex substitutions (source line 26). -/
def cleanLinesOf (t : List Char) : List (List Char) := splitLines (stripMarkup t)

/-- Result of the header loop on the given raw text. -/
def headerResult (t : List Char) : Nat × Nat × List Char :=
  headerLoop (cleanLinesOf t) 0 0 []

/-- `start_idx` as set by the header loop. -/
def bodyStartOf (t : List Char) : Nat := (headerResult t).1

/-- `separator_count` when the header loop ends. -/
def sepCountOf (t : List Char) : Nat := (headerResult t).2.1

/-- The stale `line` variable read by the footer loop. -/
def staleLineOf (t : List Char) : List Char := (headerResult t).2.2

/-- `end_idx` as set by the footer loop (source lines 40-44). -/
def endIdxOf (t : List Char) : Nat :=
  footerScan (staleLineOf t)
    (List.range' (bodyStartOf t) ((cleanLinesOf t).length - bodyStartOf t))
    (cleanLinesOf t).length

/-- `start_idx` after the `if separator_count < 2: start_idx = 0` reset
(source lines 46-47). -/
def startFinalOf (t : List Char) : Nat :=
  if sepCountOf t < 2 then 0 else bodyStartOf t

/-- `clean_aozora_text` (source lines 7-56): regex substitutions, header and
footer slicing `lines[start_idx:end_idx]`, blank-line removal, right-trim,
join with newlines. -/
def clean_aozora_text (t : List Char) : List Char :=
  finishLines (((cleanLinesOf t).drop (startFinalOf t)).take (endIdxOf t - startFinalOf t))

/-- Sanity evaluation: plain text passes through untouched. -/
theorem sanity_clean_plain :
    clean_aozora_text (String.toList "a\nb") = String.toList "a\nb" := by decide

/-- Sanity evaluation: ruby spans, blank lines and trailing blanks go. -/
theorem sanity_clean_markup : clean_aozora_text (String.toList "a《xy》b\n\n c ") =
    String.toList "ab\n c" := by decide

/-- One entry of the downloaded ZIP archive: a name and raw bytes. -/
structure ZEntry where
  name : List Char
  bytes : List Nat

/-- Abstract outcome of `requests.get(url)` (source lines 70-74): a transport
failure (the call raises), or a response with an HTTP status code and either
a parseable ZIP entry list or `none` when the body is not a valid archive. -/
inductive HttpResult where
  | err : HttpResult
  | resp (status : Nat) (archive : Option (List ZEntry)) : HttpResult

/-- `name.endswith(".txt")` (source line 77). -/
def endsWithTxt (n : List Char) : Bool := ['.', 't', 'x', 't'].isSuffixOf n

/-- Byte-level model of Python's `bytes.decode("shift_jis", errors=...)`
(source line 86).  `tbl` abstracts the two-byte JIS code table (`none` for
unassigned pairs).  Single bytes below `0x80` are ASCII; `0xA1`-`0xDF` are
halfwidth katakana; `0x81`-`0x9F` and `0xE0`-`0xEF` are lead bytes expecting
a trail byte in `0x40`-`0x7E` or `0x80`-`0xFC`.  With `ignore = true`
(Python's `errors="ignore"`) every invalid sequence is skipped; with
`ignore = false` (Python's default `errors="strict"`) it raises, modelled as
`Except.error`. -/
def decodeSJ (tbl : Nat → Nat → Option Char) (ignore : Bool) :
    List Nat → Except Unit (List Char)
  | [] => .ok []
  | b :: rest =>
    if b < 0x80 then (decodeSJ tbl ignore rest).map (fun s => Char.ofNat b :: s)
    else if 0xA1 ≤ b ∧ b ≤ 0xDF then
      (decodeSJ tbl ignore rest).map (fun s => Char.ofNat (0xFF61 + (b - 0xA1)) :: s)
    else if (0x81 ≤ b ∧ b ≤ 0x9F) ∨ (0xE0 ≤ b ∧ b ≤ 0xEF) then
      match rest with
      | [] => if ignore then .ok [] else .error ()
      | b2 :: rest2 =>
        if (0x40 ≤ b2 ∧ b2 ≤ 0x7E) ∨ (0x80 ≤ b2 ∧ b2 ≤ 0xFC) then
          match tbl b b2 with
          | some c => (decodeSJ tbl ignore rest2).map (fun s => c :: s)
          | none => if ignore then decodeSJ tbl ignore rest2 else .error ()
        else if ignore then decodeSJ tbl ignore rest2 else .error ()
    else if ignore then decodeSJ tbl ignore rest else .error ()

/-- `download_and_process_aozora` (source lines 59-92) over the abstract
request outcome `r`.  Every exception inside the `try` block — a transport
error, `raise_for_status()` on a status `≥ 400`, a `BadZipFile` — lands in
the `except` handler, which logs and returns `""`; an archive without a
`.txt` entry returns `""` explicitly; otherwise the first `.txt` entry is
decoded (`shift_jis`, `errors="ignore"`) and cleaned. -/
def download_and_process_aozora (tbl : Nat → Nat → Option Char)
    (r : HttpResult) : List Char :=
  match r with
  | .err => []
  | .resp status arch =>
    if 400 ≤ status then []
    else
      match arch with
      | none => []
      | some entries =>
        match entries.filter (fun e => endsWithTxt e.name) with
        | [] => []
        | e :: _ =>
          match decodeSJ tbl true e.bytes with
          | .ok raw => clean_aozora_text raw
          | .error _ => []

/-- The `if text:` truthiness test of `main` (source line 122): a source is
reported `Done` and appended to the corpus exactly when its cleaned text is
non-empty. -/
def sourceReport (t : List Char) : Bool := !t.isEmpty

/-- The `"\n\n"` separator joining corpus entries (source line 134). -/
def corpusSep : List Char := ['\n', '\n']

/-- Observable outcome of `main` (source lines 111-140): the complete
contents written to `dazai_corpus.txt` (`none` when no file is written) and
the reported total character count (`none` when the "No text data extracted."
message is printed instead). -/
structure MainResult where
  fileContents : Option (List Char)
  totalChars : Option Nat
  deriving DecidableEq

namespace Dazai

/-- `main` (source lines 111-140) over the per-source cleaned-text results
(one per URL, in source-list order; the network pipeline is abstracted by
this list, each entry being what `download_and_process_aozora` returned).
Non-empty results are accumulated in order; at the end the accumulator is
either joined with `"\n\n"` and written with its summed character count, or
nothing is written. -/
def main (results : List (List Char)) : MainResult :=
  let full_corpus := results.filter sourceReport
  if full_corpus.isEmpty then ⟨none, none⟩
  else ⟨some (joinWith corpusSep full_corpus), some ((full_corpus.map List.length).sum)⟩

end Dazai

/-- Sanity evaluation: two successes joined by the blank-line separator. -/
theorem sanity_main_join : Dazai.main [String.toList "ab", [], String.toList "c"] =
    ⟨some (String.toList "ab\n\nc"), some 3⟩ := by decide

/-- Sanity evaluation: all-failed batch writes nothing. -/
theorem sanity_main_nodata : Dazai.main [[], []] = ⟨none, none⟩ := by decide

/-- Sanity evaluation: ASCII, a two-byte pair, and two invalid bytes. -/
theorem sanity_decode : decodeSJ (fun _ _ => some 'あ') true [0x61, 0x82, 0xA0, 0xFF] =
    .ok ['a', 'あ'] := rfl

theorem dropThroughFirst_length {t : Char} :
    ∀ {l r : List Char}, dropThroughFirst t l = some r → r.length < l.length := by
  intro l
  induction l with
  | nil => intro r h; simp [dropThroughFirst] at h
  | cons c rest ih =>
    intro r h
    by_cases hc : c = t
    · simp [dropThroughFirst, hc] at h
      subst h; simp
    · simp [dropThroughFirst, hc] at h
      exact Nat.lt_trans (ih h) (by simp)

theorem dropThroughFirst_hit (t : Char) :
    ∀ (w r : List Char), (∀ c ∈ w, c ≠ t) →
      dropThroughFirst t (w ++ t :: r) = some r := by
  intro w
  induction w with
  | nil => intro r _; simp [dropThroughFirst]
  | cons c w ih =>
    intro r hw
    have hc : c ≠ t := hw c (by simp)
    simp only [List.cons_append, dropThroughFirst, if_neg hc]
    exact ih r (fun d hd => hw d (by simp [hd]))

theorem removeRubyF_irrel :
    ∀ (n m : Nat) (l : List Char), l.length ≤ n → l.length ≤ m →
      removeRubyF n l = removeRubyF m l := by
  intro n
  induction n with
  | zero =>
    intro m l hn _
    have hl : l = [] := List.length_eq_zero.mp (Nat.le_zero.mp hn)
    subst hl; cases m <;> rfl
  | succ n ih =>
    intro m l hn hm
    cases l with
    | nil => cases m <;> rfl
    | cons c rest =>
      cases m with
      | zero => simp at hm
      | succ m =>
        have hrn : rest.length ≤ n := by simpa using hn
        have hrm : rest.length ≤ m := by simpa using hm
        by_cases hc : c = '《'
        · subst hc
          cases rest with
          | nil => rfl
          | cons d rest2 =>
            by_cases hd : d = '》'
            · subst hd
              have h1 : removeRubyF n ('》' :: rest2) = removeRubyF m ('》' :: rest2) :=
                ih m _ hrn hrm
              simp [removeRubyF, h1]
            · cases hdrop : dropThroughFirst '》' (d :: rest2) with
              | some r2 =>
                have hlen := dropThroughFirst_length hdrop
                have h1 : removeRubyF n r2 = removeRubyF m r2 := by
                  apply ih <;> (simp only [List.length_cons] at hrn hrm hlen; omega)
                simp [removeRubyF, hd, hdrop, h1]
              | none =>
                have h1 : removeRubyF n (d :: rest2) = removeRubyF m (d :: rest2) :=
                  ih m _ hrn hrm
                simp [removeRubyF, hd, hdrop, h1]
        · have h1 : removeRubyF n rest = removeRubyF m rest := ih m _ hrn hrm
          simp [removeRubyF, hc, h1]

theorem removeNotesF_irrel :
    ∀ (n m : Nat) (l : List Char), l.length ≤ n → l.length ≤ m →
      removeNotesF n l = removeNotesF m l := by
  intro n
  induction n with
  | zero =>
    intro m l hn _
    have hl : l = [] := List.length_eq_zero.mp (Nat.le_zero.mp hn)
    subst hl; cases m <;> rfl
  | succ n ih =>
    intro m l hn hm
    cases l with
    | nil => cases m <;> rfl
    | cons c rest =>
      cases m with
      | zero => simp at hm
      | succ m =>
        have hrn : rest.length ≤ n := by simpa using hn
        have hrm : rest.length ≤ m := by simpa using hm
        by_cases hc : c = '［'
        · subst hc
          cases rest with
          | nil => rfl
          | cons d rest2 =>
            by_cases hd : d = '＃'
            · subst hd
              cases rest2 with
              | nil =>
                have h1 : removeNotesF n ['＃'] = removeNotesF m ['＃'] :=
                  ih m _ hrn hrm
                simp [removeNotesF, h1]
              | cons e rest3 =>
                by_cases he : e = '］'
                · subst he
                  have h1 : removeNotesF n ('＃' :: '］' :: rest3) =
                      removeNotesF m ('＃' :: '］' :: rest3) := ih m _ hrn hrm
                  simp [removeNotesF, h1]
                · cases hdrop : dropThroughFirst '］' (e :: rest3) with
                  | some r3 =>
                    have hlen := dropThroughFirst_length hdrop
                    have h1 : removeNotesF n r3 = removeNotesF m r3 := by
                      apply ih <;> (simp only [List.length_cons] at hrn hrm hlen; omega)
                    simp [removeNotesF, he, hdrop, h1]
                  | none =>
                    have h1 : removeNotesF n ('＃' :: e :: rest3) =
                        removeNotesF m ('＃' :: e :: rest3) := ih m _ hrn hrm
                    simp [removeNotesF, he, hdrop, h1]
            · have h1 : removeNotesF n (d :: rest2) = removeNotesF m (d :: rest2) :=
                ih m _ hrn hrm
              simp [removeNotesF, hd, h1]
        · have h1 : removeNotesF n rest = removeNotesF m rest := ih m _ hrn hrm
          simp [removeNotesF, hc, h1]

theorem removeRuby_cons_of_ne {c : Char} (rest : List Char) (hc : c ≠ '《') :
    removeRuby (c :: rest) = c :: removeRuby rest := by
  simp [removeRuby, removeRubyF, hc]

theorem removeRuby_open_close (rest : List Char) :
    removeRuby ('《' :: '》' :: rest) = '《' :: removeRuby ('》' :: rest) := by
  simp [removeRuby, removeRubyF]

theorem removeRuby_open_last : removeRuby ['《'] = ['《'] := rfl

theorem removeRuby_match {d : Char} {rest rest2 : List Char} (hd : d ≠ '》')
    (h : dropThroughFirst '》' (d :: rest) = some rest2) :
    removeRuby ('《' :: d :: rest) = removeRuby rest2 := by
  have hlen := dropThroughFirst_length h
  simp only [removeRuby, List.length_cons, removeRubyF, if_pos rfl, if_neg hd, h]
  exact removeRubyF_irrel _ _ _ (by simp at hlen ⊢; omega) (le_refl _)

theorem removeRuby_nomatch {d : Char} {rest : List Char} (hd : d ≠ '》')
    (h : dropThroughFirst '》' (d :: rest) = none) :
    removeRuby ('《' :: d :: rest) = '《' :: removeRuby (d :: rest) := by
  simp [removeRuby, removeRubyF, hd, h]

theorem removeNotes_cons_of_ne {c : Char} (rest : List Char) (hc : c ≠ '［') :
    removeNotes (c :: rest) = c :: removeNotes rest := by
  simp [removeNotes, removeNotesF, hc]

theorem removeNotes_match {e : Char} {rest3 restOut : List Char} (he : e ≠ '］')
    (h : dropThroughFirst '］' (e :: rest3) = some restOut) :
    removeNotes ('［' :: '＃' :: e :: rest3) = removeNotes restOut := by
  have hlen := dropThroughFirst_length h
  simp only [removeNotes, List.length_cons, removeNotesF, if_pos rfl, if_neg he, h]
  exact removeNotesF_irrel _ _ _ (by simp at hlen ⊢; omega) (le_refl _)

theorem removeRuby_nil : removeRuby [] = [] := rfl

theorem removeNotes_nil : removeNotes [] = [] := rfl

/-- Characters other than `《` pass through `removeRuby` untouched. -/
theorem removeRuby_append {p : List Char} (hp : ∀ c ∈ p, c ≠ '《') :
    ∀ r, removeRuby (p ++ r) = p ++ removeRuby r := by
  induction p with
  | nil => intro r; rfl
  | cons c p ih =>
    intro r
    have hc : c ≠ '《' := hp c (by simp)
    rw [List.cons_append, removeRuby_cons_of_ne _ hc,
      ih (fun d hd => hp d (by simp [hd]))]
    simp

/-- Characters other than `［` pass through `removeNotes` untouched. -/
theorem removeNotes_append {p : List Char} (hp : ∀ c ∈ p, c ≠ '［') :
    ∀ r, removeNotes (p ++ r) = p ++ removeNotes r := by
  induction p with
  | nil => intro r; rfl
  | cons c p ih =>
    intro r
    have hc : c ≠ '［' := hp c (by simp)
    rw [List.cons_append, removeNotes_cons_of_ne _ hc,
      ih (fun d hd => hp d (by simp [hd]))]
    simp

theorem removeRuby_id {l : List Char} (h : ∀ c ∈ l, c ≠ '《') :
    removeRuby l = l := by
  have h2 := removeRuby_append h []
  rw [List.append_nil] at h2
  rw [h2, removeRuby_nil, List.append_nil]

theorem removeNotes_id {l : List Char} (h : ∀ c ∈ l, c ≠ '［') :
    removeNotes l = l := by
  have h2 := removeNotes_append h []
  rw [List.append_nil] at h2
  rw [h2, removeNotes_nil, List.append_nil]

theorem containsSub_single {a : Char} :
    ∀ {l : List Char}, containsSub [a] l = true ↔ a ∈ l := by
  intro l
  induction l with
  | nil => simp [containsSub, List.isEmpty]
  | cons c rest ih =>
    simp only [containsSub, List.isPrefixOf, Bool.and_true, Bool.or_eq_true,
      beq_iff_eq, ih, List.mem_cons]

theorem containsSub_head_not {a : Char} {p : List Char} :
    ∀ {l : List Char}, a ∉ l → containsSub (a :: p) l = false := by
  intro l
  induction l with
  | nil => intro _; simp [containsSub, List.isEmpty]
  | cons c rest ih =>
    intro h
    have hac : ¬a = c := fun hh => h (by simp [hh])
    simp only [containsSub, List.isPrefixOf, Bool.or_eq_true, Bool.and_eq_true,
      beq_iff_eq, ih (fun hh => h (by simp [hh]))]
    simp [hac]

theorem splitLines_ne_nil : ∀ t : List Char, splitLines t ≠ [] := by
  intro t
  cases t with
  | nil => simp [splitLines]
  | cons c rest =>
    by_cases hc : c = '\n'
    · simp [splitLines, hc]
    · simp only [splitLines, if_neg hc]
      cases splitLines rest <;> simp

theorem mem_of_mem_splitLines : ∀ (t l : List Char) (c : Char),
    l ∈ splitLines t → c ∈ l → c ∈ t := by
  intro t
  induction t with
  | nil =>
    intro l c hl hc
    simp [splitLines] at hl
    subst hl; simp at hc
  | cons a rest ih =>
    intro l c hl hc
    by_cases ha : a = '\n'
    · simp only [splitLines, if_pos ha] at hl
      rcases List.mem_cons.mp hl with h | h
      · subst h; simp at hc
      · exact List.mem_cons_of_mem a (ih l c h hc)
    · simp only [splitLines, if_neg ha] at hl
      cases hsp : splitLines rest with
      | nil => exact absurd hsp (splitLines_ne_nil rest)
      | cons hd tl =>
        rw [hsp] at hl
        rcases List.mem_cons.mp hl with h | h
        · subst h
          rcases List.mem_cons.mp hc with h2 | h2
          · subst h2; simp
          · have hmem : hd ∈ splitLines rest := by rw [hsp]; simp
            exact List.mem_cons_of_mem a (ih hd c hmem h2)
        · have hmem : l ∈ splitLines rest := by rw [hsp]; simp [h]
          exact List.mem_cons_of_mem a (ih l c hmem hc)

theorem joinLines_splitLines : ∀ t : List Char, joinLines (splitLines t) = t := by
  intro t
  induction t with
  | nil => rfl
  | cons a rest ih =>
    by_cases ha : a = '\n'
    · subst ha
      simp only [splitLines, if_pos rfl]
      cases hsp : splitLines rest with
      | nil => exact absurd hsp (splitLines_ne_nil rest)
      | cons hd tl =>
        rw [hsp] at ih
        simp only [joinLines, joinWith] at ih ⊢
        rw [ih]
        rfl
    · simp only [splitLines, if_neg ha]
      cases hsp : splitLines rest with
      | nil => exact absurd hsp (splitLines_ne_nil rest)
      | cons hd tl =>
        rw [hsp] at ih
        cases tl with
        | nil => simp only [joinLines, joinWith] at ih ⊢; rw [ih]
        | cons l2 ls2 =>
          simp only [joinLines, joinWith] at ih ⊢
          rw [List.cons_append, ih]

theorem mem_joinWith (sep : List Char) : ∀ (ls : List (List Char)) (c : Char),
    c ∈ joinWith sep ls → (∃ l ∈ ls, c ∈ l) ∨ c ∈ sep := by
  intro ls
  induction ls with
  | nil => intro c h; simp [joinWith] at h
  | cons l ls ih =>
    intro c h
    cases ls with
    | nil =>
      simp only [joinWith] at h
      exact Or.inl ⟨l, by simp, h⟩
    | cons l2 ls2 =>
      simp only [joinWith] at h
      rcases List.mem_append.mp h with h | h
      · exact Or.inl ⟨l, by simp, h⟩
      · rcases List.mem_append.mp h with h | h
        · exact Or.inr h
        · rcases ih c h with ⟨la, hla, hc⟩ | h2
          · exact Or.inl ⟨la, by simp [hla], hc⟩
          · exact Or.inr h2

theorem mem_rstrip {c : Char} {l : List Char} (h : c ∈ rstrip l) : c ∈ l := by
  unfold rstrip at h
  rw [List.mem_reverse] at h
  have h2 : c ∈ l.reverse := (List.dropWhile_sublist isPySpace).subset h
  exact List.mem_reverse.mp h2

/-- Number of lines containing the horizontal-rule string. -/
def sepLineCount (ls : List (List Char)) : Nat :=
  ls.countP (fun l => containsSub headerSep l)

theorem headerLoop_skip : ∀ (xs : List (List Char)),
    (∀ l ∈ xs, containsSub headerSep l = false) →
    ∀ (rest : List (List Char)) (i cnt : Nat) (last : List Char),
      headerLoop (xs ++ rest) i cnt last =
        headerLoop rest (i + xs.length) cnt (xs.getLastD last) := by
  intro xs
  induction xs with
  | nil => intro _ rest i cnt last; simp
  | cons x xs ih =>
    intro hx rest i cnt last
    have h1 : containsSub headerSep x = false := hx x (by simp)
    simp only [List.cons_append, headerLoop, h1, Bool.false_eq_true, if_false,
      List.append_eq]
    rw [ih (fun l hl => hx l (by simp [hl])) rest (i + 1) cnt x]
    rw [List.getLastD_cons]
    congr 1
    simp [List.length_cons]
    omega

theorem headerLoop_complete : ∀ (ls : List (List Char)) (i cnt : Nat) (last : List Char),
    cnt + sepLineCount ls < 2 →
    headerLoop ls i cnt last = (0, cnt + sepLineCount ls, ls.getLastD last) := by
  intro ls
  induction ls with
  | nil => intro i cnt last _; simp [headerLoop, sepLineCount]
  | cons l ls ih =>
    intro i cnt last hcnt
    cases hl : containsSub headerSep l with
    | true =>
      have hsep : sepLineCount (l :: ls) = sepLineCount ls + 1 := by
        simp [sepLineCount, List.countP_cons, hl]
      rw [hsep] at hcnt
      have hne : ¬cnt + 1 = 2 := by omega
      simp only [headerLoop, hl, if_true, if_neg hne]
      rw [ih (i + 1) (cnt + 1) l (by omega), hsep, List.getLastD_cons]
      congr 2
      omega
    | false =>
      have hsep : sepLineCount (l :: ls) = sepLineCount ls := by
        simp [sepLineCount, List.countP_cons, hl]
      rw [hsep] at hcnt
      simp only [headerLoop, hl, Bool.false_eq_true, if_false]
      rw [ih (i + 1) cnt l hcnt, hsep, List.getLastD_cons]

theorem headerLoop_start_eq_zero : ∀ (ls : List (List Char)) (i cnt : Nat) (last : List Char),
    (headerLoop ls i cnt last).2.1 ≠ 2 → (headerLoop ls i cnt last).1 = 0 := by
  intro ls
  induction ls with
  | nil => intro i cnt last _; rfl
  | cons l ls ih =>
    intro i cnt last h
    cases hl : containsSub headerSep l with
    | true =>
      by_cases h2 : cnt + 1 = 2
      · exfalso
        apply h
        simp [headerLoop, hl, h2]
      · simp only [headerLoop, hl, if_true, if_neg h2] at h ⊢
        exact ih (i + 1) (cnt + 1) l h
    | false =>
      simp only [headerLoop, hl, Bool.false_eq_true, if_false] at h ⊢
      exact ih (i + 1) cnt l h

theorem headerLoop_not2 : ∀ (ls : List (List Char)) (i cnt : Nat) (last : List Char),
    cnt < 2 → (headerLoop ls i cnt last).2.1 ≠ 2 →
    headerLoop ls i cnt last = (0, cnt + sepLineCount ls, ls.getLastD last) := by
  intro ls
  induction ls with
  | nil => intro i cnt last _ _; simp [headerLoop, sepLineCount]
  | cons l ls ih =>
    intro i cnt last hcnt h
    cases hl : containsSub headerSep l with
    | true =>
      have hsep : sepLineCount (l :: ls) = sepLineCount ls + 1 := by
        simp [sepLineCount, List.countP_cons, hl]
      by_cases h2 : cnt + 1 = 2
      · exfalso
        apply h
        simp [headerLoop, hl, h2]
      · simp only [headerLoop, hl, if_true, if_neg h2] at h ⊢
        rw [ih (i + 1) (cnt + 1) l (by omega) h, hsep, List.getLastD_cons]
        congr 2
        omega
    | false =>
      have hsep : sepLineCount (l :: ls) = sepLineCount ls := by
        simp [sepLineCount, List.countP_cons, hl]
      simp only [headerLoop, hl, Bool.false_eq_true, if_false] at h ⊢
      rw [ih (i + 1) cnt l hcnt h, hsep, List.getLastD_cons]

theorem footerScan_neg {stale : List Char} (h : isColophonStart stale = false) :
    ∀ (idxs : List Nat) (d : Nat), footerScan stale idxs d = d := by
  intro idxs
  induction idxs with
  | nil => intro d; rfl
  | cons i rest ih =>
    intro d
    simp only [footerScan, h, Bool.false_eq_true, if_false]
    exact ih d

theorem footerScan_pos {stale : List Char} (h : isColophonStart stale = true)
    (i : Nat) (rest : List Nat) (d : Nat) : footerScan stale (i :: rest) d = i := by
  simp [footerScan, h]

/-- The footer loop's effect: because it re-reads the header loop's stale
`line` on every iteration, `end_idx` is either the body start (when the stale
line is a colophon line and the range is non-empty) or the line count. -/
theorem endIdx_eq (t : List Char) :
    endIdxOf t =
      if isColophonStart (staleLineOf t) = true ∧ bodyStartOf t < (cleanLinesOf t).length
      then bodyStartOf t else (cleanLinesOf t).length := by
  unfold endIdxOf
  by_cases hcol : isColophonStart (staleLineOf t) = true
  · by_cases hlt : bodyStartOf t < (cleanLinesOf t).length
    · obtain ⟨k, hk⟩ : ∃ k, (cleanLinesOf t).length - bodyStartOf t = k + 1 :=
        ⟨(cleanLinesOf t).length - bodyStartOf t - 1, by omega⟩
      rw [hk, List.range'_succ, footerScan_pos hcol, if_pos ⟨hcol, hlt⟩]
    · have hk : (cleanLinesOf t).length - bodyStartOf t = 0 := by omega
      rw [hk]
      simp only [List.range', footerScan]
      rw [if_neg (fun hh => hlt hh.2)]
  · have hcol' : isColophonStart (staleLineOf t) = false := by
      cases h : isColophonStart (staleLineOf t)
      · rfl
      · exact absurd h hcol
    rw [footerScan_neg hcol', if_neg (fun hh => hcol hh.1)]

/-- The `if separator_count < 2` reset never changes the slice start: when
the header loop ends with fewer than two separators, `start_idx` was never
assigned and is already `0`. -/
theorem startFinal_eq_bodyStart (t : List Char) : startFinalOf t = bodyStartOf t := by
  unfold startFinalOf
  by_cases h : sepCountOf t < 2
  · rw [if_pos h]
    have : (headerLoop (cleanLinesOf t) 0 0 []).1 = 0 :=
      headerLoop_start_eq_zero _ 0 0 [] (by
        intro hh
        unfold sepCountOf headerResult at h
        omega)
    unfold bodyStartOf headerResult
    rw [this]
  · rw [if_neg h]

/-- One well-formed markup item: a plain character, a complete non-empty
ruby span `《…》`, or a complete non-empty editorial-note span `［＃…］`. -/
inductive AzItem where
  | plain (c : Char) : AzItem
  | ruby (w : List Char) : AzItem
  | note (w : List Char) : AzItem

/-- Characters allowed outside span delimiters: anything but the four
bracket characters (the separator glyph `｜` is allowed; it is removed by
the third substitution). -/
def bodyChar (c : Char) : Bool :=
  !(c = '《' || c = '》' || c = '［' || c = '］')

/-- Well-formedness of one item: span bodies are non-empty and free of the
four bracket characters. -/
def itemOK : AzItem → Bool
  | .plain c => bodyChar c
  | .ruby w => !w.isEmpty && w.all bodyChar
  | .note w => !w.isEmpty && w.all bodyChar

def renderItem : AzItem → List Char
  | .plain c => [c]
  | .ruby w => '《' :: (w ++ ['》'])
  | .note w => '［' :: '＃' :: (w ++ ['］'])

/-- Concatenation of rendered items: a text made of well-formed markup. -/
def renderText (its : List AzItem) : List Char := (its.map renderItem).flatten

def notRuby : AzItem → Bool
  | .ruby _ => false
  | _ => true

def isPlainItem : AzItem → Bool
  | .plain _ => true
  | _ => false

theorem renderText_cons (it : AzItem) (its : List AzItem) :
    renderText (it :: its) = renderItem it ++ renderText its := by
  simp [renderText]

theorem removeRuby_render : ∀ (its : List AzItem),
    (∀ it ∈ its, itemOK it = true) →
    removeRuby (renderText its) = renderText (its.filter notRuby) := by
  intro its
  induction its with
  | nil => intro _; rfl
  | cons it its ih =>
    intro hok
    have hok1 : itemOK it = true := hok it (by simp)
    have hokr : ∀ x ∈ its, itemOK x = true := fun x hx => hok x (by simp [hx])
    rw [renderText_cons]
    cases it with
    | plain c =>
      have hc : c ≠ '《' := by
        simp only [itemOK, bodyChar] at hok1
        intro hh
        simp [hh] at hok1
      simp only [renderItem, List.singleton_append]
      rw [removeRuby_cons_of_ne _ hc, ih hokr]
      simp [List.filter_cons, notRuby, renderText_cons, renderItem]
    | ruby w =>
      simp only [itemOK, Bool.and_eq_true, Bool.not_eq_true',
        List.all_eq_true] at hok1
      obtain ⟨hne, hbody⟩ := hok1
      cases w with
      | nil => simp at hne
      | cons a w2 =>
        have hshape : renderItem (AzItem.ruby (a :: w2)) ++ renderText its =
            '《' :: a :: (w2 ++ '》' :: renderText its) := by
          simp [renderItem]
        rw [hshape]
        have ha : a ≠ '》' := by
          have := hbody a (by simp)
          simp only [bodyChar] at this
          intro hh
          simp [hh] at this
        have hdrop : dropThroughFirst '》' (a :: (w2 ++ '》' :: renderText its)) =
            some (renderText its) := by
          have hw : ∀ c ∈ a :: w2, c ≠ '》' := by
            intro c hc hh
            have := hbody c hc
            simp [hh, bodyChar] at this
          have := dropThroughFirst_hit '》' (a :: w2) (renderText its) hw
          simpa using this
        rw [removeRuby_match ha hdrop, ih hokr]
        simp [List.filter_cons, notRuby]
    | note w =>
      have hno : ∀ c ∈ renderItem (AzItem.note w), c ≠ '《' := by
        simp only [itemOK, Bool.and_eq_true, List.all_eq_true] at hok1
        intro c hc
        simp [renderItem] at hc
        rcases hc with rfl | rfl | hc | rfl
        · decide
        · decide
        · intro hh
          have := hok1.2 c hc
          simp [hh, bodyChar] at this
        · decide
      rw [removeRuby_append hno, ih hokr]
      simp [List.filter_cons, notRuby, renderText_cons]

theorem removeNotes_render : ∀ (its : List AzItem),
    (∀ it ∈ its, itemOK it = true ∧ notRuby it = true) →
    removeNotes (renderText its) = renderText (its.filter isPlainItem) := by
  intro its
  induction its with
  | nil => intro _; rfl
  | cons it its ih =>
    intro hok
    have hok1 := (hok it (by simp)).1
    have hnr1 := (hok it (by simp)).2
    have hokr : ∀ x ∈ its, itemOK x = true ∧ notRuby x = true :=
      fun x hx => hok x (by simp [hx])
    rw [renderText_cons]
    cases it with
    | plain c =>
      have hc : c ≠ '［' := by
        simp only [itemOK, bodyChar] at hok1
        intro hh
        simp [hh] at hok1
      simp only [renderItem, List.singleton_append]
      rw [removeNotes_cons_of_ne _ hc, ih hokr]
      simp [List.filter_cons, isPlainItem, renderText_cons, renderItem]
    | ruby w => simp [notRuby] at hnr1
    | note w =>
      simp only [itemOK, Bool.and_eq_true, Bool.not_eq_true',
        List.all_eq_true] at hok1
      obtain ⟨hne, hbody⟩ := hok1
      cases w with
      | nil => simp at hne
      | cons a w2 =>
        have hshape : renderItem (AzItem.note (a :: w2)) ++ renderText its =
            '［' :: '＃' :: a :: (w2 ++ '］' :: renderText its) := by
          simp [renderItem]
        rw [hshape]
        have ha : a ≠ '］' := by
          have := hbody a (by simp)
          simp only [bodyChar] at this
          intro hh
          simp [hh] at this
        have hdrop : dropThroughFirst '］' (a :: (w2 ++ '］' :: renderText its)) =
            some (renderText its) := by
          have hw : ∀ c ∈ a :: w2, c ≠ '］' := by
            intro c hc hh
            have := hbody c hc
            simp [hh, bodyChar] at this
          have := dropThroughFirst_hit '］' (a :: w2) (renderText its) hw
          simpa using this
        rw [removeNotes_match ha hdrop, ih hokr]
        simp [List.filter_cons, isPlainItem]

theorem renderText_plain_chars : ∀ (its : List AzItem),
    (∀ it ∈ its, itemOK it = true ∧ isPlainItem it = true) →
    ∀ c ∈ renderText its, bodyChar c = true := by
  intro its
  induction its with
  | nil => intro _ c hc; simp [renderText] at hc
  | cons it its ih =>
    intro hok c hc
    rw [renderText_cons] at hc
    rcases List.mem_append.mp hc with h | h
    · obtain ⟨hok1, hpl⟩ := hok it (by simp)
      cases it with
      | plain d =>
        simp only [renderItem, List.mem_singleton] at h
        subst h
        exact hok1
      | ruby w => simp [isPlainItem] at hpl
      | note w => simp [isPlainItem] at hpl
    · exact ih (fun x hx => hok x (by simp [hx])) c h

/-- Every character surviving the three regex substitutions on a well-formed
markup text is a plain body character other than `｜`. -/
theorem stripMarkup_render_chars (its : List AzItem)
    (h : ∀ it ∈ its, itemOK it = true) :
    ∀ c ∈ stripMarkup (renderText its), bodyChar c = true ∧ c ≠ '｜' := by
  unfold stripMarkup removeSeparatorGlyph
  rw [removeRuby_render its h]
  rw [removeNotes_render (its.filter notRuby) (fun x hx =>
    ⟨h x (List.mem_of_mem_filter hx), (List.mem_filter.mp hx).2⟩)]
  intro c hc
  have hc2 := List.mem_of_mem_filter hc
  have hsep := (List.mem_filter.mp hc).2
  have hplain : ∀ it ∈ (its.filter notRuby).filter isPlainItem,
      itemOK it = true ∧ isPlainItem it = true := by
    intro it hit
    refine ⟨h it (List.mem_of_mem_filter (List.mem_of_mem_filter hit)), ?_⟩
    exact (List.mem_filter.mp hit).2
  refine ⟨renderText_plain_chars _ hplain c hc2, ?_⟩
  intro hh
  rw [hh] at hsep
  simp at hsep

theorem not_mem_of_containsSub_single_false {a : Char} {l : List Char}
    (h : containsSub [a] l = false) : a ∉ l := by
  intro hm
  rw [containsSub_single.mpr hm] at h
  cases h

theorem containsSub_single_false_of_not_mem {a : Char} {l : List Char}
    (h : a ∉ l) : containsSub [a] l = false := by
  cases hc : containsSub [a] l
  · rfl
  · exact absurd (containsSub_single.mp hc) h

theorem getLastD_mem {α : Type} : ∀ (l : List α) (d : α), l ≠ [] → l.getLastD d ∈ l := by
  intro l
  induction l with
  | nil => intro d h; exact absurd rfl h
  | cons a l ih =>
    intro d _
    cases l with
    | nil => simp [List.getLastD]
    | cons b l2 =>
      rw [List.getLastD_cons]
      exact List.mem_cons_of_mem a (ih a (by simp))

/-- C9: footer removal is all-or-nothing.  For every input, either `end_idx`
is the line count (the retained slice runs to the last line; no footer is
removed), or `end_idx` equals the body-start index and the cleaner returns
the empty string.  The footer loop compares the stale header-loop `line` on
every iteration, so it can only fire at its very first index. -/
theorem footerRemoval_allOrNothing (t : List Char) :
    endIdxOf t = (cleanLinesOf t).length ∨
      (endIdxOf t = bodyStartOf t ∧ clean_aozora_text t = []) := by
  rw [endIdx_eq]
  by_cases h : isColophonStart (staleLineOf t) = true ∧
      bodyStartOf t < (cleanLinesOf t).length
  · rw [if_pos h]
    right
    refine ⟨rfl, ?_⟩
    unfold clean_aozora_text
    rw [startFinal_eq_bodyStart, endIdx_eq, if_pos h]
    simp [finishLines, joinLines, joinWith]
  · rw [if_neg h]
    left
    rfl

/-- C7 (amended): if no line at or after the body start begins with a
colophon marker, and — when two rules were found — the second rule line
itself (the stale `line` the footer loop actually inspects) does not begin
with one either, then the output runs through the final line: no footer is
stripped. -/
theorem noColophon_noFooter (t : List Char)
    (h1 : ∀ l ∈ (cleanLinesOf t).drop (bodyStartOf t), isColophonStart l = false)
    (h2 : sepCountOf t = 2 → isColophonStart (staleLineOf t) = false) :
    clean_aozora_text t = finishLines ((cleanLinesOf t).drop (startFinalOf t)) := by
  have hend : endIdxOf t = (cleanLinesOf t).length := by
    rw [endIdx_eq]
    by_cases hsep : sepCountOf t = 2
    · rw [if_neg]
      intro hh
      rw [h2 hsep] at hh
      cases hh.1
    · have hne : (headerLoop (cleanLinesOf t) 0 0 []).2.1 ≠ 2 := by
        unfold sepCountOf headerResult at hsep
        exact hsep
      have hcomplete := headerLoop_not2 (cleanLinesOf t) 0 0 [] (by omega) hne
      have hstale : staleLineOf t = (cleanLinesOf t).getLastD [] := by
        unfold staleLineOf headerResult
        rw [hcomplete]
      have hstart : bodyStartOf t = 0 := by
        unfold bodyStartOf headerResult
        rw [hcomplete]
      have hmem : (cleanLinesOf t).getLastD [] ∈ cleanLinesOf t :=
        getLastD_mem _ _ (splitLines_ne_nil _)
      have hcol : isColophonStart (staleLineOf t) = false := by
        rw [hstale]
        exact h1 _ (by rw [hstart, List.drop_zero]; exact hmem)
      rw [if_neg]
      intro hh
      rw [hcol] at hh
      cases hh.1
  unfold clean_aozora_text
  rw [hend, startFinal_eq_bodyStart]
  congr 1
  have hlen : ((cleanLinesOf t).drop (bodyStartOf t)).length =
      (cleanLinesOf t).length - bodyStartOf t := List.length_drop _ _
  rw [← hlen, List.take_length]

/-- Raw text whose second header-rule line itself begins with `底本：`:
two rule lines, then a body line, with no colophon line in the body. -/
def exC7 : List Char :=
  headerSep ++ '\n' :: (colophon1 ++ headerSep) ++ '\n' :: String.toList "body"

/-- C7 counterexample: in `exC7` no line at or after the computed body start
(index 2: just `"body"`) begins with a colophon marker, yet the cleaner
returns the empty string instead of extending through the final line —
because the stale header-loop `line` (the second rule line) begins with
`底本：`, the footer loop fires immediately. -/
theorem exC7_counterexample :
    (∀ l ∈ (cleanLinesOf exC7).drop (bodyStartOf exC7), isColophonStart l = false) ∧
    clean_aozora_text exC7 ≠ finishLines ((cleanLinesOf exC7).drop (startFinalOf exC7)) := by
  constructor
  · decide
  · decide

/-- Closed instance of the amended C7 theorem. -/
theorem noColophon_noFooter_witness :
    clean_aozora_text (String.toList "a\nb") =
      finishLines ((cleanLinesOf (String.toList "a\nb")).drop
        (startFinalOf (String.toList "a\nb"))) :=
  noColophon_noFooter (String.toList "a\nb") (by decide) (by decide)

/-- A fully regular Aozora layout: title line, rule, metadata line, rule,
body, then a colophon (`底本：`) footer. -/
def exC1 : List Char :=
  String.toList "title\n" ++ headerSep ++ String.toList "\nmeta\n" ++ headerSep ++
    String.toList "\nBODY\n底本：X\nafter"

/-- C1: on a well-formed input (header delimited by exactly two rule lines,
body, then a `底本：` colophon footer) the cleaner keeps the footer: the
output is the body *plus* the colophon line and everything after it, because
the footer loop inspects the stale header-loop `line` (the second rule line)
instead of `lines[i]` and therefore never fires.  The claim (and the code's
own comment: the footer is to be removed) expects just `"BODY"`. -/
theorem exC1_footer_not_removed :
    clean_aozora_text exC1 = String.toList "BODY\n底本：X\nafter" ∧
    containsSub colophon1 (clean_aozora_text exC1) = true := by
  constructor
  · decide
  · decide

/-- Two 55-hyphen rule lines around a metadata line, then a body line. -/
def exC2 : List Char :=
  String.toList "head\n" ++ headerSep ++ String.toList "\nmeta\n" ++ headerSep ++
    String.toList "\nbody"

/-- C2 counterexample: no line of `exC2` contains a row of 57 hyphens, yet
the cleaner strips the header anyway (output `"body"`).  Under the claim's
57-hyphen rule there would be fewer than two rule lines, so the whole text
would be kept from the top. -/
theorem exC2_counterexample :
    (∀ l ∈ cleanLinesOf exC2, containsSub (List.replicate 57 '-') l = false) ∧
    clean_aozora_text exC2 = String.toList "body" := by
  constructor
  · decide
  · decide

/-- C2 (amended): the horizontal-rule string is a row of 55 hyphens; a line
counts toward the rule count exactly when it contains that string, and
`start_idx` is the index immediately after the second such line. -/
theorem headerRule_is55 (xs ys zs : List (List Char)) (a b : List Char)
    (hxs : ∀ l ∈ xs, containsSub headerSep l = false)
    (ha : containsSub headerSep a = true)
    (hys : ∀ l ∈ ys, containsSub headerSep l = false)
    (hb : containsSub headerSep b = true) :
    headerSep = List.replicate 55 '-' ∧
    (headerLoop (xs ++ a :: (ys ++ b :: zs)) 0 0 []).1 =
      xs.length + ys.length + 2 := by
  refine ⟨rfl, ?_⟩
  rw [headerLoop_skip xs hxs]
  have step1 : ∀ (i : Nat) (last : List Char),
      headerLoop (a :: (ys ++ b :: zs)) i 0 last =
        headerLoop (ys ++ b :: zs) (i + 1) 1 a := by
    intro i last
    simp [headerLoop, ha]
  rw [step1, headerLoop_skip ys hys]
  have step2 : ∀ (j : Nat) (last : List Char),
      headerLoop (b :: zs) j 1 last = (j + 1, 2, b) := by
    intro j last
    simp [headerLoop, hb]
  rw [step2]
  simp
  omega

/-- Closed instance of the amended C2 theorem. -/
theorem headerRule_is55_witness :
    headerSep = List.replicate 55 '-' ∧
    (headerLoop ([['t']] ++ headerSep :: ([] ++ headerSep :: [['z']])) 0 0 []).1 = 3 := by
  have h := headerRule_is55 [['t']] [] [['z']] headerSep headerSep
    (by decide) (by decide) (by decide) (by decide)
  simpa using h

/-- Every character of the cleaner's output is a newline inserted by the
final join, or a character surviving the regex substitutions. -/
theorem clean_chars {t : List Char} {c : Char} (hc : c ∈ clean_aozora_text t) :
    c = '\n' ∨ c ∈ stripMarkup t := by
  unfold clean_aozora_text finishLines joinLines at hc
  rcases mem_joinWith _ _ _ hc with ⟨l, hl, hcl⟩ | h
  · rcases List.mem_map.mp hl with ⟨l0, hl0, rfl⟩
    have hcl0 : c ∈ l0 := mem_rstrip hcl
    have hl1 := List.mem_of_mem_filter hl0
    have hl2 := (List.take_sublist _ _).subset hl1
    have hl3 := (List.drop_sublist _ _).subset hl2
    exact Or.inr (mem_of_mem_splitLines _ _ _ hl3 hcl0)
  · simp at h
    exact Or.inl h

/-- C3 (amended): for every input whatsoever the output contains no `｜`;
and for inputs consisting of well-formed markup — plain non-bracket
characters, complete non-empty ruby spans `《…》` and complete non-empty
note spans `［＃…］` — the output contains no occurrence of `《`, `》`,
`［＃`, `］` or `｜`.  (Unmatched or empty markup tokens in arbitrary input
survive the substitutions, so the unrestricted claim fails.) -/
theorem cleanOutput_noMarkupTokens :
    (∀ t : List Char, containsSub ['｜'] (clean_aozora_text t) = false) ∧
    (∀ its : List AzItem, (∀ it ∈ its, itemOK it = true) →
      containsSub ['《'] (clean_aozora_text (renderText its)) = false ∧
      containsSub ['》'] (clean_aozora_text (renderText its)) = false ∧
      containsSub ['［', '＃'] (clean_aozora_text (renderText its)) = false ∧
      containsSub ['］'] (clean_aozora_text (renderText its)) = false ∧
      containsSub ['｜'] (clean_aozora_text (renderText its)) = false) := by
  have hsepmem : ∀ (t : List Char), '｜' ∉ stripMarkup t := by
    intro t hm
    unfold stripMarkup removeSeparatorGlyph at hm
    have := (List.mem_filter.mp hm).2
    simp at this
  refine ⟨fun t => containsSub_single_false_of_not_mem ?_, fun its h => ?_⟩
  · intro hm
    rcases clean_chars hm with h1 | h1
    · exact absurd h1 (by decide)
    · exact hsepmem t h1
  · have key : ∀ c ∈ clean_aozora_text (renderText its),
        c ≠ '《' ∧ c ≠ '》' ∧ c ≠ '［' ∧ c ≠ '］' ∧ c ≠ '｜' := by
      intro c hc
      rcases clean_chars hc with rfl | h2
      · exact ⟨by decide, by decide, by decide, by decide, by decide⟩
      · obtain ⟨hb, hsep⟩ := stripMarkup_render_chars its h c h2
        refine ⟨?_, ?_, ?_, ?_, hsep⟩ <;>
          (intro hh; rw [hh] at hb; simp [bodyChar] at hb)
    exact ⟨containsSub_single_false_of_not_mem (fun hm => (key _ hm).1 rfl),
      containsSub_single_false_of_not_mem (fun hm => (key _ hm).2.1 rfl),
      containsSub_head_not (fun hm => (key _ hm).2.2.1 rfl),
      containsSub_single_false_of_not_mem (fun hm => (key _ hm).2.2.2.1 rfl),
      containsSub_single_false_of_not_mem (fun hm => (key _ hm).2.2.2.2 rfl)⟩

/-- C3 counterexample: an unmatched `《` (no closing `》` anywhere) is not a
regex match, survives every substitution, and appears in the output. -/
theorem exC3_counterexample :
    containsSub ['《'] (clean_aozora_text (String.toList "a《b")) = true := by decide

/-- A small well-formed markup text used to instantiate the amended C3. -/
def exItems : List AzItem :=
  [.plain 'x', .ruby ['y'], .note ['z'], .plain '｜']

/-- A string already in cleaned form: no residual markup characters, fewer
than two rule lines, last line not a colophon line, and every line non-blank
and right-trimmed — exactly the "no further markup or boilerplate remains to
strip" condition under which re-running the cleaner changes nothing. -/
def isCleanOutput (s : List Char) : Bool :=
  !containsSub ['《'] s && !containsSub ['［'] s && !containsSub ['｜'] s &&
  decide (sepLineCount (splitLines s) < 2) &&
  !isColophonStart ((splitLines s).getLastD []) &&
  (splitLines s).all (fun l => keepLine l && rstrip l == l)

theorem isCleanOutput_iff {s : List Char} :
    isCleanOutput s = true ↔
      containsSub ['《'] s = false ∧ containsSub ['［'] s = false ∧
      containsSub ['｜'] s = false ∧ sepLineCount (splitLines s) < 2 ∧
      isColophonStart ((splitLines s).getLastD []) = false ∧
      ∀ l ∈ splitLines s, keepLine l = true ∧ rstrip l = l := by
  simp [isCleanOutput, Bool.and_eq_true, Bool.not_eq_true', List.all_eq_true,
    and_assoc]

theorem map_self {α : Type} (f : α → α) :
    ∀ l : List α, (∀ x ∈ l, f x = x) → l.map f = l := by
  intro l
  induction l with
  | nil => intro _; rfl
  | cons a l ih =>
    intro h
    rw [List.map_cons, h a (by simp), ih (fun x hx => h x (by simp [hx]))]

/-- A string in cleaned form is a fixed point of the cleaner. -/
theorem clean_fixpoint {s : List Char} (h : isCleanOutput s = true) :
    clean_aozora_text s = s := by
  obtain ⟨h1, h2, h3, h4, h5, h6⟩ := isCleanOutput_iff.mp h
  have hnr : removeRuby s = s :=
    removeRuby_id (fun c hc hceq =>
      not_mem_of_containsSub_single_false h1 (hceq ▸ hc))
  have hnn : removeNotes s = s :=
    removeNotes_id (fun c hc hceq =>
      not_mem_of_containsSub_single_false h2 (hceq ▸ hc))
  have hsep : removeSeparatorGlyph s = s := by
    unfold removeSeparatorGlyph
    apply List.filter_eq_self.mpr
    intro c hc
    have hne : c ≠ '｜' := fun hh =>
      not_mem_of_containsSub_single_false h3 (hh ▸ hc)
    simp [hne]
  have hstrip : stripMarkup s = s := by
    unfold stripMarkup
    rw [hnr, hnn, hsep]
  have hlines : cleanLinesOf s = splitLines s := by
    unfold cleanLinesOf
    rw [hstrip]
  have hHL : headerLoop (splitLines s) 0 0 [] =
      (0, sepLineCount (splitLines s), (splitLines s).getLastD []) := by
    have := headerLoop_complete (splitLines s) 0 0 [] (by omega)
    simpa using this
  have hbody : bodyStartOf s = 0 := by
    unfold bodyStartOf headerResult
    rw [hlines, hHL]
  have hstale : staleLineOf s = (splitLines s).getLastD [] := by
    unfold staleLineOf headerResult
    rw [hlines, hHL]
  have hsc : sepCountOf s = sepLineCount (splitLines s) := by
    unfold sepCountOf headerResult
    rw [hlines, hHL]
  have hend : endIdxOf s = (cleanLinesOf s).length := by
    rw [endIdx_eq, if_neg]
    intro hh
    rw [hstale, h5] at hh
    cases hh.1
  have hsf : startFinalOf s = 0 := by
    unfold startFinalOf
    rw [if_pos (by rw [hsc]; exact h4)]
  unfold clean_aozora_text
  rw [hend, hsf, hlines, List.drop_zero, Nat.sub_zero, List.take_length]
  unfold finishLines
  rw [List.filter_eq_self.mpr (fun l hl => (h6 l hl).1),
    map_self rstrip _ (fun l hl => (h6 l hl).2), joinLines_splitLines]

/-- C4: idempotence on well-formed inputs.  For every input whose cleaned
output is in cleaned form (no residual markup, no rule lines or colophon
line surviving in the output — "no further markup or boilerplate remains to
strip"), re-running the cleaner on its own output yields the same output. -/
theorem clean_idempotent (t : List Char)
    (h : isCleanOutput (clean_aozora_text t) = true) :
    clean_aozora_text (clean_aozora_text t) = clean_aozora_text t :=
  clean_fixpoint h

/-- Closed instance of the idempotence theorem. -/
theorem clean_idempotent_witness :
    isCleanOutput (clean_aozora_text (String.toList "a《xy》b\n\n c ")) = true ∧
    clean_aozora_text (clean_aozora_text (String.toList "a《xy》b\n\n c ")) =
      clean_aozora_text (String.toList "a《xy》b\n\n c ") :=
  ⟨by decide, clean_idempotent _ (by decide)⟩

/-- Closed instance of the amended C3 theorem. -/
theorem cleanOutput_noMarkupTokens_witness :
    containsSub ['《'] (clean_aozora_text (renderText exItems)) = false ∧
    containsSub ['》'] (clean_aozora_text (renderText exItems)) = false ∧
    containsSub ['［', '＃'] (clean_aozora_text (renderText exItems)) = false ∧
    containsSub ['］'] (clean_aozora_text (renderText exItems)) = false ∧
    containsSub ['｜'] (clean_aozora_text (renderText exItems)) = false :=
  cleanOutput_noMarkupTokens.2 exItems (by decide)

theorem decode_ignore_total : ∀ (N : Nat) (bs : List Nat), bs.length ≤ N →
    ∀ tbl : Nat → Nat → Option Char, ∃ cs, decodeSJ tbl true bs = Except.ok cs := by
  intro N
  induction N with
  | zero =>
    intro bs hbs tbl
    have hb : bs = [] := List.length_eq_zero.mp (Nat.le_zero.mp hbs)
    subst hb
    exact ⟨[], rfl⟩
  | succ N ih =>
    intro bs hbs tbl
    cases bs with
    | nil => exact ⟨[], rfl⟩
    | cons b rest =>
      have hrest : rest.length ≤ N := by simpa using hbs
      by_cases hb1 : b < 0x80
      · obtain ⟨cs, hcs⟩ := ih rest hrest tbl
        exact ⟨Char.ofNat b :: cs, by rw [decodeSJ.eq_def]; simp [hb1, hcs, Except.map]⟩
      · by_cases hb2 : 0xA1 ≤ b ∧ b ≤ 0xDF
        · obtain ⟨cs, hcs⟩ := ih rest hrest tbl
          exact ⟨Char.ofNat (0xFF61 + (b - 0xA1)) :: cs, by
            rw [decodeSJ.eq_def]
            simp [hb1, hb2, hcs, Except.map]⟩
        · by_cases hb3 : (0x81 ≤ b ∧ b ≤ 0x9F) ∨ (0xE0 ≤ b ∧ b ≤ 0xEF)
          · cases rest with
            | nil => exact ⟨[], by rw [decodeSJ.eq_def]; simp [hb1, hb2, hb3]⟩
            | cons b2 rest2 =>
              have hrest2 : rest2.length ≤ N := by
                simp only [List.length_cons] at hrest
                omega
              by_cases hb4 : (0x40 ≤ b2 ∧ b2 ≤ 0x7E) ∨ (0x80 ≤ b2 ∧ b2 ≤ 0xFC)
              · cases htbl : tbl b b2 with
                | some c =>
                  obtain ⟨cs, hcs⟩ := ih rest2 hrest2 tbl
                  exact ⟨c :: cs, by
                    rw [decodeSJ.eq_def]
                    simp [hb1, hb2, hb3, hb4, htbl, hcs, Except.map]⟩
                | none =>
                  obtain ⟨cs, hcs⟩ := ih rest2 hrest2 tbl
                  exact ⟨cs, by rw [decodeSJ.eq_def]; simp [hb1, hb2, hb3, hb4, htbl, hcs]⟩
              · obtain ⟨cs, hcs⟩ := ih rest2 hrest2 tbl
                exact ⟨cs, by rw [decodeSJ.eq_def]; simp [hb1, hb2, hb3, hb4, hcs]⟩
          · obtain ⟨cs, hcs⟩ := ih rest hrest tbl
            exact ⟨cs, by rw [decodeSJ.eq_def]; simp [hb1, hb2, hb3, hcs]⟩

/-- C8: with `errors="ignore"` the Shift_JIS decode never raises: for every
byte sequence (and every code table) it yields `Except.ok` — invalid
sequences are skipped, never surfaced as an error. -/
theorem decodeSJ_ignore_never_raises (tbl : Nat → Nat → Option Char)
    (bs : List Nat) : ∃ cs, decodeSJ tbl true bs = Except.ok cs :=
  decode_ignore_total bs.length bs (le_refl _) tbl

theorem main_skip_of_not_report (pre post : List (List Char)) (x : List Char)
    (hx : sourceReport x = false) :
    Dazai.main (pre ++ x :: post) = Dazai.main (pre ++ post) := by
  simp [Dazai.main, List.filter_append, List.filter_cons, hx]

/-- C5: the corpus file's contents.  If at least one source yielded a
non-empty cleaned text, `main` writes exactly the successful cleaned texts,
in source-list order, joined by `"\n\n"`, and reports the sum of their
individual lengths (separators excluded); if none succeeded, nothing is
written and the no-data message is reported; the file exists iff at least
one source succeeded. -/
theorem main_writes_iff_success (results : List (List Char)) :
    ((∃ r ∈ results, sourceReport r = true) →
      Dazai.main results =
        ⟨some (joinWith corpusSep (results.filter sourceReport)),
         some (((results.filter sourceReport).map List.length).sum)⟩) ∧
    ((∀ r ∈ results, sourceReport r = false) →
      Dazai.main results = ⟨none, none⟩) ∧
    ((Dazai.main results).fileContents.isSome ↔
      ∃ r ∈ results, sourceReport r = true) := by
  have hne : (∃ r ∈ results, sourceReport r = true) →
      (results.filter sourceReport).isEmpty = false := by
    rintro ⟨r, hr, hrep⟩
    have hmem : r ∈ results.filter sourceReport := List.mem_filter.mpr ⟨hr, hrep⟩
    cases hempty : (results.filter sourceReport).isEmpty
    · rfl
    · rw [List.isEmpty_iff.mp hempty] at hmem
      simp at hmem
  have hyes : (∀ r ∈ results, sourceReport r = false) →
      (results.filter sourceReport).isEmpty = true := by
    intro hall
    rw [List.isEmpty_iff, List.filter_eq_nil_iff]
    intro r hr
    rw [hall r hr]
    simp
  refine ⟨?_, ?_, ?_⟩
  · intro hex
    simp [Dazai.main, hne hex]
  · intro hall
    simp [Dazai.main, hyes hall]
  · by_cases hex : ∃ r ∈ results, sourceReport r = true
    · simp [Dazai.main, hne hex, hex]
    · have hall : ∀ r ∈ results, sourceReport r = false := by
        intro r hr
        cases hrep : sourceReport r
        · rfl
        · exact absurd ⟨r, hr, hrep⟩ hex
      simp [Dazai.main, hyes hall, hex]

/-- Closed instance of the C5 theorem at a successful and a failed batch. -/
theorem main_writes_iff_success_witness :
    Dazai.main [String.toList "ab", [], String.toList "c"] =
      ⟨some (joinWith corpusSep
        ([String.toList "ab", [], String.toList "c"].filter sourceReport)),
       some ((([String.toList "ab", [], String.toList "c"].filter
        sourceReport).map List.length).sum)⟩ ∧
    Dazai.main [([] : List Char)] = ⟨none, none⟩ :=
  ⟨(main_writes_iff_success [String.toList "ab", [], String.toList "c"]).1
      ⟨String.toList "ab", by decide⟩,
    (main_writes_iff_success [([] : List Char)]).2.1 (by decide)⟩

/-- C6: every failure local to one source — a transport error, a non-success
HTTP status (`raise_for_status`), or an archive with no `.txt` entry — makes
`download_and_process_aozora` return the empty string (the `except` handler
logs and returns `""`; no exception escapes), and such a source contributes
nothing to the batch: `main` over the remaining sources is unchanged. -/
theorem download_local_failure_empty (tbl : Nat → Nat → Option Char)
    (r : HttpResult)
    (h : r = HttpResult.err ∨
      (∃ st a, r = HttpResult.resp st a ∧ 400 ≤ st) ∨
      (∃ st entries, r = HttpResult.resp st (some entries) ∧
        entries.filter (fun e => endsWithTxt e.name) = [])) :
    download_and_process_aozora tbl r = [] ∧
    ∀ (pre post : List (List Char)),
      Dazai.main (pre ++ download_and_process_aozora tbl r :: post) =
        Dazai.main (pre ++ post) := by
  have hempty : download_and_process_aozora tbl r = [] := by
    rcases h with rfl | ⟨st, a, rfl, hst⟩ | ⟨st, entries, rfl, hfil⟩
    · rfl
    · simp [download_and_process_aozora, hst]
    · by_cases hst : 400 ≤ st
      · simp [download_and_process_aozora, hst]
      · simp [download_and_process_aozora, hst, hfil]
  refine ⟨hempty, fun pre post => ?_⟩
  rw [hempty]
  exact main_skip_of_not_report pre post [] rfl

/-- Closed instance of the C6 theorem at a transport error. -/
theorem download_local_failure_empty_witness :
    download_and_process_aozora (fun _ _ => none) HttpResult.err = [] :=
  (download_local_failure_empty (fun _ _ => none) HttpResult.err (Or.inl rfl)).1

/-- C10: a source whose pipeline succeeds but cleans to the empty string is
treated exactly like a failed source: it is filtered out of the corpus,
contributes nothing to the reported character count, and its per-source
report is the `Failed` branch (`sourceReport [] = false`), just as for a
pipeline failure. -/
theorem emptyClean_indistinguishable (pre post : List (List Char)) :
    Dazai.main (pre ++ ([] : List Char) :: post) = Dazai.main (pre ++ post) ∧
    sourceReport ([] : List Char) = false :=
  ⟨main_skip_of_not_report pre post [] rfl, rfl⟩
